import Mathlib

/-!
Verification of the MQTT async connection engine (`acl::mqtt_aclient`).

The repository exposes the class interface in
`lib_acl_cpp/include/acl_cpp/mqtt/mqtt_aclient.hpp`; the member-function
bodies (`handle_data`, `close`, `send`, `timeout_callback`, ...) live in a
translation unit that is not part of the sources here, so the engine is
modelled from the specification. The only behaviour taken directly from the
header file is the default `on_read_timeout` hook, whose body
`{ return false; }` appears inline in the header.

Bytes are modelled as natural numbers; a byte on the wire is below 256 and
the continuation flag of a remaining-length byte is its high bit, tested as
`128 ≤ b`.
-/

namespace MqttAclient

/-- Modelled from the spec: the frame-in-progress decode state
(`mqtt_header* header_` and `mqtt_message* body_` of `mqtt_aclient`, whose
implementation is not under src). It carries the accumulated fixed-header
byte, the remaining-length accumulator together with the count of
remaining-length bytes consumed so far and whether the remaining-length
parse is done, and the payload bytes accumulated so far. -/
structure FrameState where
  headerByte : Option Nat
  rlDone : Bool
  rlAcc : Nat
  rlCount : Nat
  payload : List Nat
deriving DecidableEq

/-- Result of feeding one byte to the frame decoder: need more bytes, the
remaining-length parse just completed (header known, payload pending),
a whole frame completed, or the remaining-length encoding is malformed. -/
inductive StepResult where
  | more (s : FrameState)
  | headerDone (h rl : Nat) (s : FrameState)
  | frameDone (h rl : Nat) (payload : List Nat)
  | malformed
deriving DecidableEq

/-- Modelled from the spec: one step of the frame decoder inside
`mqtt_aclient::handle_data` (implementation not under src), consuming a
single byte. If no header byte has been seen the byte becomes the fixed
header. While the remaining length is unparsed, each byte contributes its
low 7 bits shifted by `7 * position_index` into the accumulator; a set high
bit means another byte follows, and a 4th byte with the high bit still set
is malformed; the first byte with the high bit clear finishes the parse,
completing the frame at once when the target length is zero. Afterwards
payload bytes accumulate until the target length is reached. -/
def decodeByte (s : FrameState) (b : Nat) : StepResult :=
  match s.headerByte with
  | none => .more { s with headerByte := some b }
  | some h =>
    if s.rlDone then
      let p := s.payload ++ [b]
      if s.rlAcc ≤ p.length then .frameDone h s.rlAcc p
      else .more { s with payload := p }
    else
      let acc := s.rlAcc + b % 128 * 128 ^ s.rlCount
      if 128 ≤ b then
        if s.rlCount = 3 then .malformed
        else .more { s with rlAcc := acc, rlCount := s.rlCount + 1 }
      else if acc = 0 then .frameDone h 0 []
      else .headerDone h acc { s with rlDone := true, rlAcc := acc, rlCount := s.rlCount + 1 }

/-- A dispatch or lifecycle event observed by the Consumer: the
`on_header` hook, the `on_body` hook, or the `on_disconnect` hook. -/
inductive Ev where
  | header (h rl : Nat)
  | body (h rl : Nat) (payload : List Nat)
  | disconnect
deriving DecidableEq

/-- The Consumer hooks relevant to frame dispatch: `on_header` receives the
fixed-header byte and the remaining length and may veto, `on_body` receives
the complete decoded unit and may veto. -/
structure Hooks where
  onHeader : Nat → Nat → Bool
  onBody : Nat → Nat → List Nat → Bool

/-- Modelled from the spec: the observable connection state of one
`mqtt_aclient` instance (implementation not under src): whether the
connection is open, the frame-in-progress decode state, and the trace of
hook invocations dispatched so far. -/
structure Conn where
  isOpen : Bool
  frame : FrameState
  events : List Ev
deriving DecidableEq

/-- The fresh frame-in-progress state at the start of a frame. -/
def emptyFrame : FrameState := ⟨none, false, 0, 0, []⟩

/-- A freshly opened connection awaiting its first frame. -/
def conn0 : Conn := ⟨true, emptyFrame, []⟩

/-- Modelled from the spec: `mqtt_aclient::close` (implementation not under
src). Closing an open connection fires the disconnect hook exactly once,
discards the frame-in-progress buffers and marks the connection closed;
closing an already-closed connection is a no-op. -/
def closeConn (c : Conn) : Conn :=
  if c.isOpen then ⟨false, emptyFrame, c.events ++ [.disconnect]⟩ else c

/-- Modelled from the spec: the per-byte engine step inside
`mqtt_aclient::handle_data` and `read_callback` (implementations not under
src). A closed connection ignores input. A completed remaining-length parse
dispatches `on_header`; a header veto closes the connection. A completed
frame dispatches `on_body`; a body veto closes the connection. A malformed
remaining length closes the connection. -/
def engineByte (ks : Hooks) (c : Conn) (b : Nat) : Conn :=
  if c.isOpen then
    match decodeByte c.frame b with
    | .more s => { c with frame := s }
    | .headerDone h rl s =>
      let c1 : Conn := ⟨true, s, c.events ++ [.header h rl]⟩
      if ks.onHeader h rl then c1 else closeConn c1
    | .frameDone h rl p =>
      if c.frame.rlDone then
        let c1 : Conn := ⟨true, emptyFrame, c.events ++ [.body h rl p]⟩
        if ks.onBody h rl p then c1 else closeConn c1
      else
        let c1 : Conn := ⟨true, c.frame, c.events ++ [.header h rl]⟩
        if ks.onHeader h rl then
          let c2 : Conn := ⟨true, emptyFrame, c1.events ++ [.body h rl p]⟩
          if ks.onBody h rl p then c2 else closeConn c2
        else closeConn c1
    | .malformed => closeConn c
  else c

/-- Modelled from the spec: `mqtt_aclient::handle_data` (implementation not
under src) applied to one chunk of bytes delivered by the reactor: the
engine consumes the chunk byte by byte. -/
def handle_data (ks : Hooks) (c : Conn) (bs : List Nat) : Conn :=
  bs.foldl (engineByte ks) c

/-- Modelled from the spec: a sequence of reactor deliveries, each chunk
handed to `handle_data` in turn with the decode state persisting between
deliveries. -/
def engineRun (ks : Hooks) (c : Conn) (chunks : List (List Nat)) : Conn :=
  chunks.foldl (handle_data ks) c

/-- Fuel-indexed helper for the remaining-length encoder; the fuel only
bounds the recursion depth and is irrelevant once it exceeds the number of
7-bit digits. -/
def encodeRLF : Nat → Nat → List Nat
  | 0, _ => []
  | fuel + 1, n =>
    if n < 128 then [n] else (n % 128 + 128) :: encodeRLF fuel (n / 128)

/-- Modelled from the spec: the MQTT remaining-length encoding (the encoder
lives in the `mqtt_message` codec, not under src): 7 bits of magnitude per
byte, least significant group first, high bit set as a continuation flag. -/
def encodeRL (n : Nat) : List Nat := encodeRLF (n + 1) n

/-- Run the frame decoder over a byte list starting in a given state and
report the parsed remaining length, `none` on malformed or truncated
input. -/
def runRL (s : FrameState) : List Nat → Option Nat
  | [] => none
  | b :: rest =>
    match decodeByte s b with
    | .more s1 => runRL s1 rest
    | .headerDone _ rl _ => some rl
    | .frameDone _ rl _ => some rl
    | .malformed => none

/-- Decode a remaining-length byte sequence with the engine decoder,
starting just after a fixed-header byte. -/
def decodeRL (bs : List Nat) : Option Nat := runRL ⟨some 0, false, 0, 0, []⟩ bs

/-- The wire image of one frame: fixed-header byte, remaining-length bytes,
then exactly remaining-length payload bytes. -/
def wire (f : Nat × List Nat) : List Nat :=
  f.1 :: (encodeRL f.2.length ++ f.2)

/-- The dispatch trace of one accepted frame: its header event followed by
its body event. -/
def frameTrace (f : Nat × List Nat) : List Ev :=
  [.header f.1 f.2.length, .body f.1 f.2.length f.2]

/-- Number of disconnect-hook invocations recorded in a trace. -/
def discCount (es : List Ev) : Nat :=
  es.countP fun e => decide (e = Ev.disconnect)

/-- Modelled from the spec: `mqtt_aclient::send` (implementation not under
src). The transport verdict (write accepted or rejected) is a parameter.
Sending on a connection that is not open fails without side effects;
otherwise the returned flag is exactly the transport acceptance, and the
connection state is unchanged either way. -/
def send (c : Conn) (accepted : Bool) : Bool × Conn :=
  if c.isOpen then (accepted, c) else (false, c)

/-- Modelled from the spec: `mqtt_aclient::timeout_callback` (implementation
not under src). The argument is the verdict of the `on_read_timeout` hook:
`true` re-arms the wait and leaves the connection untouched, `false` closes
the connection. The returned flag tells the reactor whether the wait was
re-armed. -/
def timeout_event (verdict : Bool) (c : Conn) : Bool × Conn :=
  if verdict then (true, c) else (false, closeConn c)

/-- From the source header, line 140: the default implementation of the
`on_read_timeout` hook is `{ return false; }`. -/
def on_read_timeout_default : Bool := false

/-- Hooks that accept every header and every body. -/
def acceptAll : Hooks := ⟨fun _ _ => true, fun _ _ _ => true⟩

/-- Hooks that veto the header of any frame whose fixed-header byte is 64
and accept everything else. -/
def vetoHooks : Hooks := ⟨fun h _ => !(h == 64), fun _ _ _ => true⟩

lemma handle_data_nil (ks : Hooks) (c : Conn) : handle_data ks c [] = c := rfl

lemma handle_data_cons (ks : Hooks) (c : Conn) (b : Nat) (bs : List Nat) :
    handle_data ks c (b :: bs) = handle_data ks (engineByte ks c b) bs := rfl

lemma handle_data_append (ks : Hooks) (c : Conn) (xs ys : List Nat) :
    handle_data ks c (xs ++ ys) = handle_data ks (handle_data ks c xs) ys := by
  simp [handle_data, List.foldl_append]

lemma engineByte_closed (ks : Hooks) (c : Conn) (b : Nat) (h : c.isOpen = false) :
    engineByte ks c b = c := by
  simp [engineByte, h]

lemma handle_data_closed (ks : Hooks) :
    ∀ (bs : List Nat) (c : Conn), c.isOpen = false → handle_data ks c bs = c := by
  intro bs
  induction bs with
  | nil => intro c _; rfl
  | cons b bs ih =>
    intro c h
    rw [handle_data_cons, engineByte_closed ks c b h]
    exact ih c h

lemma engineRun_join (ks : Hooks) :
    ∀ (chunks : List (List Nat)) (c : Conn),
      engineRun ks c chunks = handle_data ks c chunks.flatten := by
  intro chunks
  induction chunks with
  | nil => intro c; rfl
  | cons x xs ih =>
    intro c
    rw [show engineRun ks c (x :: xs) = engineRun ks (handle_data ks c x) xs from rfl,
      ih, List.flatten_cons, handle_data_append]

lemma encodeRLF_irrel :
    ∀ (f1 f2 n : Nat), n < f1 → n < f2 → encodeRLF f1 n = encodeRLF f2 n := by
  intro f1
  induction f1 with
  | zero => intro f2 n h1 _; omega
  | succ f ih =>
    intro f2 n h1 h2
    cases f2 with
    | zero => omega
    | succ g =>
      rw [encodeRLF, encodeRLF]
      by_cases hn : n < 128
      · simp [hn]
      · simp only [if_neg hn]
        have hd : n / 128 < n := Nat.div_lt_self (by omega) (by omega)
        rw [ih g (n / 128) (by omega) (by omega)]

lemma encodeRL_lt {n : Nat} (h : n < 128) : encodeRL n = [n] := by
  rw [encodeRL, encodeRLF, if_pos h]

lemma encodeRL_ge {n : Nat} (h : 128 ≤ n) :
    encodeRL n = (n % 128 + 128) :: encodeRL (n / 128) := by
  rw [encodeRL, encodeRLF, if_neg (by omega : ¬ n < 128)]
  have hd : n / 128 < n := Nat.div_lt_self (by omega) (by omega)
  rw [encodeRLF_irrel n (n / 128 + 1) (n / 128) (by omega) (by omega)]
  rfl

lemma encodeRL_length_pos (n : Nat) : 0 < (encodeRL n).length := by
  by_cases h : n < 128
  · rw [encodeRL_lt h]; simp
  · rw [encodeRL_ge (by omega)]; simp

lemma encodeRL_length_le :
    ∀ (j n : Nat), n < 128 ^ (j + 1) → (encodeRL n).length ≤ j + 1 := by
  intro j
  induction j with
  | zero =>
    intro n hn
    rw [encodeRL_lt (by simpa using hn)]
    simp
  | succ j ih =>
    intro n hn
    by_cases h : n < 128
    · rw [encodeRL_lt h]; simp
    · rw [encodeRL_ge (by omega)]
      have hdiv : n / 128 < 128 ^ (j + 1) := by
        rw [Nat.div_lt_iff_lt_mul (by norm_num : (0:Nat) < 128)]
        calc n < 128 ^ (j + 1 + 1) := hn
          _ = 128 ^ (j + 1) * 128 := pow_succ 128 (j + 1)
      have := ih (n / 128) hdiv
      simp only [List.length_cons]
      omega

lemma rl_run_gen (ks : Hooks) (h : Nat) :
    ∀ n, ∀ k acc : Nat, ∀ E : List Ev,
      k + (encodeRL n).length ≤ 4 →
      handle_data ks ⟨true, ⟨some h, false, acc, k, []⟩, E⟩ (encodeRL n) =
        if acc + n * 128 ^ k = 0 then
          (if ks.onHeader h 0 then
            (if ks.onBody h 0 [] then
              ⟨true, emptyFrame, E ++ [.header h 0, .body h 0 []]⟩
            else ⟨false, emptyFrame, E ++ [.header h 0, .body h 0 [], .disconnect]⟩)
          else ⟨false, emptyFrame, E ++ [.header h 0, .disconnect]⟩)
        else
          (if ks.onHeader h (acc + n * 128 ^ k) then
            ⟨true, ⟨some h, true, acc + n * 128 ^ k, k + (encodeRL n).length, []⟩,
              E ++ [.header h (acc + n * 128 ^ k)]⟩
          else ⟨false, emptyFrame, E ++ [.header h (acc + n * 128 ^ k), .disconnect]⟩) := by
  intro n
  induction n using Nat.strong_induction_on with
  | _ n ih =>
    intro k acc E hlen
    by_cases hn : n < 128
    · rw [encodeRL_lt hn] at hlen ⊢
      rw [handle_data_cons, handle_data_nil]
      have hb : ¬ 128 ≤ n := by omega
      have hm : n % 128 = n := Nat.mod_eq_of_lt hn
      by_cases hz : acc + n * 128 ^ k = 0
      · rw [if_pos hz]
        have hd : decodeByte ⟨some h, false, acc, k, []⟩ n = .frameDone h 0 [] := by
          simp [decodeByte, hb, hm, hz]
        simp only [engineByte, hd]
        by_cases hH : ks.onHeader h 0 <;>
          by_cases hB : ks.onBody h 0 [] <;>
            simp [hH, hB, closeConn, emptyFrame]
      · rw [if_neg hz]
        have hd : decodeByte ⟨some h, false, acc, k, []⟩ n =
            .headerDone h (acc + n * 128 ^ k)
              ⟨some h, true, acc + n * 128 ^ k, k + 1, []⟩ := by
          simp [decodeByte, hb, hm, hz]
        simp only [engineByte, hd]
        by_cases hH : ks.onHeader h (acc + n * 128 ^ k) <;>
          simp [hH, closeConn, emptyFrame]
    · have hge : 128 ≤ n := by omega
      rw [encodeRL_ge hge] at hlen ⊢
      simp only [List.length_cons] at hlen
      have hpos := encodeRL_length_pos (n / 128)
      have hk : ¬ k = 3 := by omega
      have hb : 128 ≤ n % 128 + 128 := by omega
      have hmm : (n % 128 + 128) % 128 = n % 128 := by omega
      rw [handle_data_cons]
      have he : engineByte ks ⟨true, ⟨some h, false, acc, k, []⟩, E⟩ (n % 128 + 128)
          = ⟨true, ⟨some h, false, acc + n % 128 * 128 ^ k, k + 1, []⟩, E⟩ := by
        simp [engineByte, decodeByte, hb, hk, hmm]
      rw [he]
      have hdiv : n / 128 < n := Nat.div_lt_self (by omega) (by omega)
      rw [ih (n / 128) hdiv (k + 1) (acc + n % 128 * 128 ^ k) E (by omega)]
      have harith : acc + n % 128 * 128 ^ k + n / 128 * 128 ^ (k + 1) =
          acc + n * 128 ^ k := by
        rw [pow_succ]
        conv_rhs => rw [← Nat.mod_add_div n 128]
        ring
      rw [harith]
      have hL : k + 1 + (encodeRL (n / 128)).length =
          k + ((encodeRL (n / 128)).length + 1) := by omega
      rw [hL]
      simp only [List.length_cons]

lemma payload_run (ks : Hooks) (h L k : Nat) :
    ∀ p : List Nat, ∀ q : List Nat, ∀ E : List Ev,
      q.length + p.length = L → p ≠ [] →
      handle_data ks ⟨true, ⟨some h, true, L, k, q⟩, E⟩ p =
        if ks.onBody h L (q ++ p) then
          ⟨true, emptyFrame, E ++ [.body h L (q ++ p)]⟩
        else ⟨false, emptyFrame, E ++ [.body h L (q ++ p), .disconnect]⟩ := by
  intro p
  induction p with
  | nil => intro q E _ hne; exact absurd rfl hne
  | cons b p ih =>
    intro q E hsum _
    rw [handle_data_cons]
    cases p with
    | nil =>
      have hq : q.length + 1 = L := by simpa using hsum
      have hLe : L ≤ q.length + 1 := by omega
      have hd : decodeByte ⟨some h, true, L, k, q⟩ b = .frameDone h L (q ++ [b]) := by
        simp [decodeByte, hLe]
      simp only [engineByte, hd]
      by_cases hB : ks.onBody h L (q ++ [b]) <;>
        simp [hB, closeConn, emptyFrame, handle_data_nil]
    | cons b2 p2 =>
      have hq : q.length + (p2.length + 2) = L := by simpa using hsum
      have hlt : ¬ L ≤ q.length + 1 := by omega
      have hd : decodeByte ⟨some h, true, L, k, q⟩ b =
          .more ⟨some h, true, L, k, q ++ [b]⟩ := by
        simp [decodeByte, hlt]
      have he : engineByte ks ⟨true, ⟨some h, true, L, k, q⟩, E⟩ b
          = ⟨true, ⟨some h, true, L, k, q ++ [b]⟩, E⟩ := by
        simp [engineByte, hd]
      rw [he, ih (q ++ [b]) E (by simp; omega) (by simp)]
      simp

lemma frame_run (ks : Hooks) (f : Nat × List Nat) (E : List Ev)
    (hlen : f.2.length ≤ 268435455)
    (hH : ks.onHeader f.1 f.2.length = true)
    (hB : ks.onBody f.1 f.2.length f.2 = true) :
    handle_data ks ⟨true, emptyFrame, E⟩ (wire f) =
      ⟨true, emptyFrame, E ++ frameTrace f⟩ := by
  obtain ⟨h, p⟩ := f
  simp only [wire] at *
  rw [handle_data_cons]
  have h0 : engineByte ks ⟨true, emptyFrame, E⟩ h =
      ⟨true, ⟨some h, false, 0, 0, []⟩, E⟩ := by
    simp [engineByte, decodeByte, emptyFrame]
  rw [h0, handle_data_append]
  have hlt : p.length < 128 ^ (3 + 1) := by
    have : (128 : Nat) ^ (3 + 1) = 268435456 := by norm_num
    omega
  have hlen4 : 0 + (encodeRL p.length).length ≤ 4 := by
    have := encodeRL_length_le 3 p.length hlt
    omega
  rw [rl_run_gen ks h p.length 0 0 E hlen4]
  simp only [pow_zero, mul_one, Nat.zero_add]
  by_cases hz : p.length = 0
  · have hp : p = [] := List.eq_nil_of_length_eq_zero hz
    subst hp
    simp only [List.length_nil] at hH hB ⊢
    simp [hH, hB, handle_data_nil, frameTrace]
  · rw [if_neg hz]
    rw [if_pos hH]
    rw [payload_run ks h p.length (encodeRL p.length).length p []
      (E ++ [Ev.header h p.length]) (by simp) (by simpa using hz)]
    simp [hB, frameTrace]

lemma frames_run (ks : Hooks) :
    ∀ fs : List (Nat × List Nat), ∀ E : List Ev,
      (∀ f ∈ fs, f.2.length ≤ 268435455
        ∧ ks.onHeader f.1 f.2.length = true
        ∧ ks.onBody f.1 f.2.length f.2 = true) →
      handle_data ks ⟨true, emptyFrame, E⟩ (fs.map wire).flatten =
        ⟨true, emptyFrame, E ++ (fs.map frameTrace).flatten⟩ := by
  intro fs
  induction fs with
  | nil => intro E _; simp [handle_data_nil]
  | cons f fs ih =>
    intro E hall
    have hf := hall f (by simp)
    rw [List.map_cons, List.flatten_cons, handle_data_append,
      frame_run ks f E hf.1 hf.2.1 hf.2.2,
      ih (E ++ frameTrace f) (fun g hg => hall g (by simp [hg]))]
    simp

end MqttAclient

namespace MqttAclient

/-- C2: remaining-length decoding consumes one byte at a time, each byte
contributing its low 7 bits shifted left by `7 * position_index` into the
accumulator; it stops at the first byte with the high bit clear, fails when
a 4th byte still has the high bit set, and a resulting target length of
zero completes the frame immediately with an empty payload. -/
theorem remaining_length_step (h acc k b : Nat) (pl : List Nat) :
    (128 ≤ b → k < 3 → decodeByte ⟨some h, false, acc, k, pl⟩ b =
      .more ⟨some h, false, acc + b % 128 * 128 ^ k, k + 1, pl⟩)
    ∧ (128 ≤ b → k = 3 → decodeByte ⟨some h, false, acc, k, pl⟩ b = .malformed)
    ∧ (b < 128 → acc + b % 128 * 128 ^ k ≠ 0 → decodeByte ⟨some h, false, acc, k, pl⟩ b =
      .headerDone h (acc + b % 128 * 128 ^ k)
        ⟨some h, true, acc + b % 128 * 128 ^ k, k + 1, pl⟩)
    ∧ (b < 128 → acc + b % 128 * 128 ^ k = 0 →
      decodeByte ⟨some h, false, acc, k, pl⟩ b = .frameDone h 0 []) := by
  refine ⟨fun h1 h2 => ?_, fun h1 h2 => ?_, fun h1 h2 => ?_, fun h1 h2 => ?_⟩
  · have hk : ¬ k = 3 := by omega
    simp [decodeByte, h1, hk]
  · simp [decodeByte, h1, h2]
  · have hb : ¬ 128 ≤ b := by omega
    simp [decodeByte, hb, h2]
  · have hb : ¬ 128 ≤ b := by omega
    simp [decodeByte, hb, h2]

/-- Witness for C2 at a concrete continuation byte. -/
theorem remaining_length_step_witness :
    decodeByte ⟨some 48, false, 7, 1, []⟩ 133 =
      .more ⟨some 48, false, 7 + 133 % 128 * 128 ^ 1, 2, []⟩ :=
  (remaining_length_step 48 7 1 133 []).1 (by decide) (by decide)

/-- C6: close is idempotent: closing twice equals closing once, closing a
connection that is not open changes nothing, and closing an open connection
twice records exactly one disconnect-hook invocation. -/
theorem close_idempotent (c : Conn) :
    closeConn (closeConn c) = closeConn c
    ∧ (c.isOpen = false → closeConn c = c)
    ∧ (c.isOpen = true →
      discCount (closeConn (closeConn c)).events = discCount c.events + 1) := by
  by_cases h : c.isOpen = true
  · refine ⟨?_, ?_, ?_⟩
    · simp [closeConn, h]
    · intro h2; rw [h] at h2; exact absurd h2 (by simp)
    · intro _
      simp [closeConn, h, discCount, List.countP_append]
  · have h0 : c.isOpen = false := by simpa using h
    refine ⟨?_, ?_, ?_⟩
    · simp [closeConn, h0]
    · intro _; simp [closeConn, h0]
    · intro h2; rw [h0] at h2; exact absurd h2 (by simp)

/-- Witness for C6 at the freshly opened connection. -/
theorem close_idempotent_witness :
    conn0.isOpen = true
    ∧ discCount (closeConn (closeConn conn0)).events = discCount conn0.events + 1 :=
  ⟨rfl, (close_idempotent conn0).2.2 rfl⟩

/-- C8: send fails without side effects when the connection is not open,
decode attempts after close change nothing, and on an open connection the
boolean returned by send is exactly the transport acceptance verdict (the
state is unchanged, so a true return promises only that the transport
accepted the write). -/
theorem send_requires_open (c : Conn) (a : Bool) (ks : Hooks) (bs : List Nat) :
    (c.isOpen = false → send c a = (false, c))
    ∧ (c.isOpen = false → handle_data ks c bs = c)
    ∧ (c.isOpen = true → send c a = (a, c)) := by
  refine ⟨fun h => ?_, fun h => handle_data_closed ks bs c h, fun h => ?_⟩
  · simp [send, h]
  · simp [send, h]

/-- Witness for C8 at a concrete closed connection. -/
theorem send_requires_open_witness :
    send ⟨false, emptyFrame, [Ev.disconnect]⟩ true =
      (false, ⟨false, emptyFrame, [Ev.disconnect]⟩)
    ∧ handle_data acceptAll ⟨false, emptyFrame, [Ev.disconnect]⟩ [48, 3, 65] =
      ⟨false, emptyFrame, [Ev.disconnect]⟩ :=
  ⟨(send_requires_open ⟨false, emptyFrame, [Ev.disconnect]⟩ true acceptAll [48, 3, 65]).1 rfl,
    (send_requires_open ⟨false, emptyFrame, [Ev.disconnect]⟩ true acceptAll [48, 3, 65]).2.1 rfl⟩

/-- C9: on a read timeout, a true verdict from the hook re-arms the wait
and leaves the connection unchanged; a false verdict closes the
connection. -/
theorem read_timeout_verdict (c : Conn) :
    timeout_event true c = (true, c)
    ∧ timeout_event false c = (false, closeConn c)
    ∧ (timeout_event false c).2.isOpen = false := by
  refine ⟨rfl, rfl, ?_⟩
  by_cases h : c.isOpen = true <;> simp [timeout_event, closeConn, h]

/-- C10: the default `on_read_timeout` implementation returns false, so a
subclass that does not override it has its connection closed by the first
read timeout; the wait is never re-armed. -/
theorem default_read_timeout_closes (c : Conn) :
    on_read_timeout_default = false
    ∧ timeout_event on_read_timeout_default c = (false, closeConn c)
    ∧ (timeout_event on_read_timeout_default c).2.isOpen = false := by
  refine ⟨rfl, rfl, ?_⟩
  by_cases h : c.isOpen = true <;> simp [timeout_event, on_read_timeout_default, closeConn, h]

/-- C1: decoder resumability: feeding the wire bytes of a frame to the
engine split into any partition of chunks (including single-byte
deliveries) produces exactly the same connection state, decoded header and
payload dispatches as feeding all bytes in one delivery; the in-progress
state carries all position information, so no consumed byte is re-read. -/
theorem decoder_resumability (ks : Hooks) (f : Nat × List Nat)
    (chunks : List (List Nat)) (hpart : chunks.flatten = wire f) :
    engineRun ks conn0 chunks = handle_data ks conn0 (wire f) := by
  rw [engineRun_join, hpart]

/-- Witness for C1: the frame `0x30 0x03 A B C` delivered in three
chunks equals the one-shot delivery. -/
theorem decoder_resumability_witness :
    ([[48], [3, 65], [66, 67]] : List (List Nat)).flatten = wire (48, [65, 66, 67])
    ∧ engineRun acceptAll conn0 [[48], [3, 65], [66, 67]] =
      handle_data acceptAll conn0 (wire (48, [65, 66, 67])) :=
  ⟨by decide,
    decoder_resumability acceptAll (48, [65, 66, 67]) [[48], [3, 65], [66, 67]] (by decide)⟩

/-- C3: a remaining-length field whose first four bytes all carry the
continuation bit is fatal and atomic: the engine fires the disconnect hook,
closes the connection, and dispatches neither `on_header` nor `on_body`
for the malformed frame, regardless of any further bytes. -/
theorem malformed_remaining_length_fatal (ks : Hooks) (h b0 b1 b2 b3 : Nat)
    (rest : List Nat)
    (h0 : 128 ≤ b0) (h1 : 128 ≤ b1) (h2 : 128 ≤ b2) (h3 : 128 ≤ b3) :
    handle_data ks conn0 (h :: b0 :: b1 :: b2 :: b3 :: rest) =
      ⟨false, emptyFrame, [Ev.disconnect]⟩ := by
  have step : ∀ (acc k b : Nat), 128 ≤ b → ¬ k = 3 →
      engineByte ks ⟨true, ⟨some h, false, acc, k, []⟩, []⟩ b =
        ⟨true, ⟨some h, false, acc + b % 128 * 128 ^ k, k + 1, []⟩, []⟩ := by
    intro acc k b hb hk
    simp [engineByte, decodeByte, hb, hk]
  rw [handle_data_cons,
    show engineByte ks conn0 h = ⟨true, ⟨some h, false, 0, 0, []⟩, []⟩ from by
      simp [engineByte, decodeByte, conn0, emptyFrame]]
  rw [handle_data_cons, step 0 0 b0 h0 (by omega)]
  rw [handle_data_cons, step _ 1 b1 h1 (by omega)]
  rw [handle_data_cons, step _ 2 b2 h2 (by omega)]
  rw [handle_data_cons,
    show ∀ acc : Nat, engineByte ks ⟨true, ⟨some h, false, acc, 3, []⟩, []⟩ b3 =
        ⟨false, emptyFrame, [Ev.disconnect]⟩ from fun acc => by
      simp [engineByte, decodeByte, h3, closeConn]]
  exact handle_data_closed ks rest _ rfl

/-- Witness for C3 at a concrete malformed stream. -/
theorem malformed_remaining_length_fatal_witness :
    handle_data acceptAll conn0 [48, 128, 129, 255, 200] =
      ⟨false, emptyFrame, [Ev.disconnect]⟩ :=
  malformed_remaining_length_fatal acceptAll 48 128 129 255 200 []
    (by decide) (by decide) (by decide) (by decide)

/-- C4: frame dispatch ordering: a stream of N well-formed frames delivered
across arbitrary chunk boundaries to a consumer that accepts every frame
produces exactly the trace header 1, body 1, header 2, body 2, ...,
header N, body N: header K precedes body K, which precedes header K+1,
with no interleaving. -/
theorem frame_dispatch_ordering (ks : Hooks) (frames : List (Nat × List Nat))
    (chunks : List (List Nat))
    (hlen : ∀ f ∈ frames, f.2.length ≤ 268435455)
    (hH : ∀ h rl, ks.onHeader h rl = true)
    (hB : ∀ h rl p, ks.onBody h rl p = true)
    (hpart : chunks.flatten = (frames.map wire).flatten) :
    engineRun ks conn0 chunks = ⟨true, emptyFrame, (frames.map frameTrace).flatten⟩ := by
  rw [engineRun_join, hpart]
  have hframes := frames_run ks frames [] (fun f hf => ⟨hlen f hf, hH _ _, hB _ _ _⟩)
  simpa using hframes

/-- Witness for C4: two frames split across three chunk deliveries. -/
theorem frame_dispatch_ordering_witness :
    engineRun acceptAll conn0 [[48, 3], [65], [66, 67, 64, 0]] =
      ⟨true, emptyFrame, (([(48, [65, 66, 67]), (64, [])] :
        List (Nat × List Nat)).map frameTrace).flatten⟩ :=
  frame_dispatch_ordering acceptAll [(48, [65, 66, 67]), (64, [])]
    [[48, 3], [65], [66, 67, 64, 0]] (by decide) (fun _ _ => rfl) (fun _ _ _ => rfl)
    (by decide)

/-- C5: a header veto stops processing: when `on_header` returns false for
frame K of a well-formed stream, no body dispatch occurs for frame K, no
frame after K is decoded or dispatched, and the disconnect path fires,
leaving the connection closed. -/
theorem header_veto_stops (ks : Hooks) (pre post : List (Nat × List Nat))
    (fk : Nat × List Nat) (chunks : List (List Nat))
    (hpre : ∀ f ∈ pre, f.2.length ≤ 268435455
      ∧ ks.onHeader f.1 f.2.length = true ∧ ks.onBody f.1 f.2.length f.2 = true)
    (hklen : fk.2.length ≤ 268435455)
    (hveto : ks.onHeader fk.1 fk.2.length = false)
    (hpart : chunks.flatten = ((pre ++ fk :: post).map wire).flatten) :
    engineRun ks conn0 chunks =
      ⟨false, emptyFrame,
        (pre.map frameTrace).flatten ++ [Ev.header fk.1 fk.2.length, Ev.disconnect]⟩ := by
  rw [engineRun_join, hpart, List.map_append, List.flatten_append, handle_data_append]
  have hp : handle_data ks conn0 (pre.map wire).flatten =
      ⟨true, emptyFrame, [] ++ (pre.map frameTrace).flatten⟩ :=
    frames_run ks pre [] hpre
  rw [hp]
  simp only [List.nil_append, List.map_cons, List.flatten_cons, handle_data_append]
  obtain ⟨hk, pk⟩ := fk
  simp only at hklen hveto ⊢
  rw [show wire (hk, pk) = hk :: (encodeRL pk.length ++ pk) from rfl, handle_data_cons]
  rw [show engineByte ks ⟨true, emptyFrame, (pre.map frameTrace).flatten⟩ hk =
      ⟨true, ⟨some hk, false, 0, 0, []⟩, (pre.map frameTrace).flatten⟩ from by
    simp [engineByte, decodeByte, emptyFrame]]
  rw [handle_data_append]
  have hlt : pk.length < 128 ^ (3 + 1) := by
    have : (128 : Nat) ^ (3 + 1) = 268435456 := by norm_num
    omega
  have hlen4 : 0 + (encodeRL pk.length).length ≤ 4 := by
    have := encodeRL_length_le 3 pk.length hlt
    omega
  rw [rl_run_gen ks hk pk.length 0 0 _ hlen4]
  simp only [pow_zero, mul_one, Nat.zero_add]
  have hveto1 : ¬ (ks.onHeader hk pk.length = true) := by simp [hveto]
  by_cases hz : pk.length = 0
  · rw [hz] at hveto1 ⊢
    rw [if_pos rfl, if_neg hveto1]
    rw [handle_data_closed ks pk _ rfl, handle_data_closed ks _ _ rfl]
  · rw [if_neg hz, if_neg hveto1]
    rw [handle_data_closed ks pk _ rfl, handle_data_closed ks _ _ rfl]

/-- Witness for C5: three frames where the consumer vetoes the header of
the middle frame; only frame one is dispatched, then the header event of
frame two and the disconnect. -/
theorem header_veto_stops_witness :
    engineRun vetoHooks conn0 [[48, 1, 65, 64, 2, 1, 2, 50, 1, 9]] =
      ⟨false, emptyFrame,
        (([(48, [65])] : List (Nat × List Nat)).map frameTrace).flatten ++
          [Ev.header 64 2, Ev.disconnect]⟩ :=
  header_veto_stops vetoHooks [(48, [65])] [(50, [9])] (64, [1, 2])
    [[48, 1, 65, 64, 2, 1, 2, 50, 1, 9]] (by decide) (by decide) (by decide) (by decide)

/-- C7: remaining-length round-trip: for each of the listed boundary
values, encoding then decoding with the engine decoder returns the original
value; every length of 268435456 or above, whose encoding needs a 5th
continuation byte, is rejected as malformed by the decoder. -/
theorem remaining_length_roundtrip :
    (∀ v ∈ ([0, 127, 128, 16383, 16384, 2097151, 2097152, 268435455] : List Nat),
      decodeRL (encodeRL v) = some v)
    ∧ ∀ n : Nat, 268435456 ≤ n → decodeRL (encodeRL n) = none := by
  constructor
  · decide
  · intro n hn
    rw [encodeRL_ge (by omega : 128 ≤ n),
      encodeRL_ge (by omega : 128 ≤ n / 128),
      encodeRL_ge (by omega : 128 ≤ n / 128 / 128),
      encodeRL_ge (by omega : 128 ≤ n / 128 / 128 / 128)]
    have hb : ∀ m : Nat, 128 ≤ m % 128 + 128 := fun m => by omega
    simp [decodeRL, runRL, decodeByte, hb]

/-- Witness for C7: a listed value round-trips and the first over-range
value is rejected. -/
theorem remaining_length_roundtrip_witness :
    decodeRL (encodeRL 16384) = some 16384
    ∧ decodeRL (encodeRL 268435456) = none :=
  ⟨remaining_length_roundtrip.1 16384 (by decide),
    remaining_length_roundtrip.2 268435456 (by decide)⟩

end MqttAclient
